import Mathlib

/-!
Shallow embedding of the mmk repository pieces under verification:

* `src/mimikit/networks/wavenet.py` : `WaveNetLayer` (dilation, shift_diff,
  receptive_field, output_length) and `WNNetwork` (`layers_`, the
  receptive-field loop of `__post_init__`, `shift`, `all_output_lengths`);
* `src/mmk/freqnet/freqnet.py` : the `FreqNet.receptive_field` loop, taken
  over abstract per-layer (index, receptive-field) pairs since the layer
  class itself lives in a file that is not part of the sources;
* `src/mimikit/kit/db_dataset.py` : `DBDataset.split`, `DBDataset.hparams`
  and `DBDataModule.val_dataloader`.

Python ints are modelled by `Int`, Python floats by `ℚ` (exact arithmetic;
none of the verified claims depends on IEEE rounding), and raised
exceptions by an `Except` error value.  The external
`torch.utils.data.random_split` is a parameter `rs` of the embedding.
-/

namespace MmkSpec

/-- An entry of a Python splits sequence: a float or an int.  `type(x) is
float` becomes `PyNum.isFloat`. -/
inductive PyNum where
| f : ℚ → PyNum
| i : Int → PyNum
deriving DecidableEq

def PyNum.isFloat : PyNum → Bool
| .f _ => true
| .i _ => false

/-- Numeric value of an entry, used where the code does float arithmetic. -/
def PyNum.toFloat : PyNum → ℚ
| .f q => q
| .i n => (n : ℚ)

/-- The exceptions `DBDataset.split` can raise.  The two `ValueError` sites
of the source are kept distinct; `zeroDivisionError` models the float
division by a zero sum; `indexError` models `sets.pop(0)` on an empty
list. -/
inductive SplitErr where
| valueErrorTrainNone
| valueErrorLastZero
| zeroDivisionError
| indexError
deriving DecidableEq

def SplitErr.isValueError : SplitErr → Bool
| .valueErrorTrainNone => true
| .valueErrorLastZero => true
| _ => false

def isValueErrorResult {α : Type} : Except SplitErr α → Bool
| .error e => e.isValueError
| .ok _ => false

instance instDecidableEqExcept {ε σ : Type} [DecidableEq ε] [DecidableEq σ] :
    DecidableEq (Except ε σ) :=
  fun a b =>
    match a, b with
    | .error e1, .error e2 =>
      if h : e1 = e2 then .isTrue (by rw [h]) else .isFalse (fun hc => h (Except.error.inj hc))
    | .error _, .ok _ => .isFalse (fun hc => Except.noConfusion hc)
    | .ok _, .error _ => .isFalse (fun hc => Except.noConfusion hc)
    | .ok v1, .ok v2 =>
      if h : v1 = v2 then .isTrue (by rw [h]) else .isFalse (fun hc => h (Except.ok.inj hc))

/-- Python `int(q)`: truncation of a real number toward zero. -/
def pyint (q : ℚ) : Int := if 0 ≤ q then ⌊q⌋ else -⌊-q⌋

/-- The normalization chain of `DBDataset.split` (db_dataset.py lines
82-85): `splits = [x / sum(splits) for x in splits]` followed by
`as_ints = [int(N * x) for x in splits[:-1]]`. -/
def normalizedCounts (N : Int) (sp : List ℚ) : List Int :=
  (sp.map (fun x => x / sp.sum)).dropLast.map (fun x => pyint ((N : ℚ) * x))

/-- The all-floats branch of `DBDataset.split` (db_dataset.py lines 81-91),
mapping the non-absent entries to the split sizes handed to
`random_split`; `normalizedCounts` is its `as_ints`.  A non-all-float
list passes through unchanged.  The division by `sum(splits)` is only
executed when the list is nonempty, so `ZeroDivisionError` needs a
nonempty list with zero sum. -/
def floatBranch (N : Int) (sp : List PyNum) : Except SplitErr (List PyNum) :=
  if sp.all PyNum.isFloat then
    if sp ≠ [] ∧ (sp.map PyNum.toFloat).sum = 0 then .error .zeroDivisionError
    else
      if N - (normalizedCounts N (sp.map PyNum.toFloat)).sum = 0 then
        .error .valueErrorLastZero
      else .ok ((normalizedCounts N (sp.map PyNum.toFloat)
          ++ [N - (normalizedCounts N (sp.map PyNum.toFloat)).sum]).map PyNum.i)
  else .ok sp

/-- Indices of the absent entries: `[i for i, x in zip(range(len(splits)),
splits) if x is None]`, with `j` the index of the first element. -/
def noneIndicesFrom : Nat → List (Option PyNum) → List Nat
| _, [] => []
| j, none :: rest => j :: noneIndicesFrom (j + 1) rest
| j, some _ :: rest => noneIndicesFrom (j + 1) rest

/-- The reassembly comprehension `[None if i in nones else sets.pop(0) for
i in range(len(sets + nones))]`: `t` counts the remaining iterations, `j`
is the loop variable `i`, and `none` as overall result is the
`IndexError` of popping an empty list. -/
def popReassemble {α : Type} (nones : List Nat) : Nat → Nat → List α → Option (List (Option α))
| 0, _, _ => some []
| t + 1, j, sets =>
  if j ∈ nones then (popReassemble nones t (j + 1) sets).map (fun l => none :: l)
  else
    match sets with
    | [] => none
    | s :: rest => (popReassemble nones t (j + 1) rest).map (fun l => some s :: l)

/-- Core of `DBDataset.split` after the absent entries have been removed:
the float branch, `random_split` (the parameter `rs`), and the
reassembly guarded by `any(nones)`. -/
def splitCore {α : Type} (rs : List PyNum → List α) (N : Int)
    (sp : List PyNum) (nones : List Nat) : Except SplitErr (List (Option α)) :=
  match floatBranch N sp with
  | .error e => .error e
  | .ok sp2 =>
    let sets := rs sp2
    if nones.any (fun j => j != 0) then
      match popReassemble nones (sets.length + nones.length) 0 sets with
      | none => .error .indexError
      | some out => .ok out
    else .ok (sets.map some)

/-- `DBDataset.split` (db_dataset.py lines 62-95).  `rs` stands for
`torch.utils.data.random_split`, `N` for `len(self)`.  When no entry is
absent the filter is the identity and `nones` stays `[]` as in the
source. -/
def DBDataset.split {α : Type} (rs : List PyNum → List α) (N : Int)
    (splits : List (Option PyNum)) : Except SplitErr (List (Option α)) :=
  if splits.any Option.isNone then
    if splits.head? = some none then .error .valueErrorTrainNone
    else splitCore rs N (splits.filterMap id) (noneIndicesFrom 0 splits)
  else splitCore rs N (splits.filterMap id) []

/-- Order-preserving merge used to state what the reassembly produces:
absent positions of the original sequence yield `none`, the others consume
the drawn subsets front to back. -/
def interleave {α β : Type} : List (Option β) → List α → List (Option α)
| [], _ => []
| none :: rest, sets => none :: interleave rest sets
| some _ :: _, [] => []
| some _ :: rest, s :: sets => some s :: interleave rest sets

/-- Per-layer configuration of `WaveNetLayer` (wavenet.py lines 14-29).
Only the fields the verified quantities read are kept; `layer_i` is a
`Nat` because the network builds layers from `range(block)`. -/
structure WaveNetLayer where
  layer_i : Nat
  kernel_size : Int
  pad_input : Int
  accum_outputs : Int
  stride : Int
deriving DecidableEq

/-- wavenet.py line 31: `self.kernel_size ** self.layer_i`. -/
def WaveNetLayer.dilation (l : WaveNetLayer) : Int := l.kernel_size ^ l.layer_i

/-- wavenet.py lines 33-36. -/
def WaveNetLayer.shift_diff (l : WaveNetLayer) : Int :=
  if l.pad_input = 0 then (l.kernel_size - 1) * l.dilation else 0

/-- wavenet.py lines 45-48: `self.kernel_size * self.dilation`. -/
def WaveNetLayer.receptive_field (l : WaveNetLayer) : Int :=
  l.kernel_size * l.dilation

/-- wavenet.py lines 120-126.  `math.floor(1 + numerator / stride)` is
`1 + ⌊numerator / stride⌋`, which for integers is `1 + fdiv`. -/
def WaveNetLayer.output_length (l : WaveNetLayer) (input_length : Int) : Int :=
  if l.pad_input ≠ 0 then input_length
  else 1 + Int.fdiv (input_length - l.dilation * (l.kernel_size - 1) - 1) l.stride

/-- Hyperparameters of `WNNetwork` (wavenet.py lines 130-146) that the
verified quantities depend on. -/
structure WNNetwork where
  n_layers : List Nat
  kernel_size : Int
  accum_outputs : Int
  pad_input : Int
deriving DecidableEq

/-- wavenet.py lines 156-170: one `WaveNetLayer` per `i in range(block)`
per block, with the hyperparameters copied down and the default
`stride = 1`. -/
def WNNetwork.layers (net : WNNetwork) : List WaveNetLayer :=
  (net.n_layers.map (fun block => (List.range block).map
    (fun i => WaveNetLayer.mk i net.kernel_size net.pad_input net.accum_outputs 1))).flatten

/-- The receptive-field loop of `WNNetwork.__post_init__` (wavenet.py
lines 189-195): the last layer contributes its full receptive field, any
other layer followed by a layer with `layer_i == 0` contributes its
receptive field minus one, the rest contribute nothing. -/
def rfLoop : List WaveNetLayer → Int
| [] => 0
| [l] => l.receptive_field
| l :: l2 :: rest => (if l2.layer_i = 0 then l.receptive_field - 1 else 0) + rfLoop (l2 :: rest)

def WNNetwork.receptive_field (net : WNNetwork) : Int := rfLoop net.layers

/-- wavenet.py lines 197-202. -/
def WNNetwork.shift (net : WNNetwork) : Int :=
  if net.pad_input = 1 then 1
  else if net.pad_input = -1 then net.receptive_field
  else (net.layers.map WaveNetLayer.shift_diff).sum + 1

/-- wavenet.py lines 212-218: thread the length through the layers,
recording each intermediate output length. -/
def allOutLens : List WaveNetLayer → Int → List Int
| [], _ => []
| l :: rest, n => l.output_length n :: allOutLens rest (l.output_length n)

def WNNetwork.all_output_lengths (net : WNNetwork) (input_length : Int) : List Int :=
  allOutLens net.layers input_length

/-- The `WNNetwork.__post_init__` receptive-field loop over abstract
layers given as (layer index, receptive-field value) pairs, as claim C5
compares the two loops over layers agreeing on exactly these data. -/
def wnRfIdx : List (Nat × Int) → Int
| [] => 0
| [l] => l.2
| l :: l2 :: rest => (if l2.1 = 0 then l.2 - 1 else 0) + wnRfIdx (l2 :: rest)

/-- The `block_rf` list of `FreqNet.receptive_field` (freqnet.py lines
77-80): for every layer but the last, paired with its successor,
`receptive_field() - 1` is collected when the successor starts a block. -/
def freqBlockRf : List (Nat × Int) → List Int
| [] => []
| [_] => []
| l :: l2 :: rest => (if l2.1 = 0 then [l.2 - 1] else []) ++ freqBlockRf (l2 :: rest)

/-- `FreqNet.receptive_field` (freqnet.py lines 76-82) over abstract
(layer index, receptive-field value) pairs.  `self.layers[-1]` raises
`IndexError` on an empty layer list, modelled by `none`. -/
def FreqNet.receptive_field (ls : List (Nat × Int)) : Option Int :=
  match ls.getLast? with
  | none => none
  | some last => some ((freqBlockRf ls ++ [last.2]).sum)

/-- A `DataLoader` as `val_dataloader` builds it: the dataset, the copied
keyword arguments, and the `shuffle` entry written into the copy. -/
structure DataLoader (δ κ : Type) where
  dataset : δ
  kwargs : κ
  shuffle : Option Bool
deriving DecidableEq

/-- The attributes of `DBDataModule` (db_dataset.py lines 149-162) that
`val_dataloader` reads, together with the two lazy-initialization flags
of the training framework. -/
structure DBDataModule (δ κ : Type) where
  splits : Option (List (Option PyNum))
  loader_kwargs : κ
  val_ds : δ
  has_prepared_data : Bool
  has_setup_fit : Bool

/-- The lazy `prepare_data` / `setup("fit")` calls of the dataloader
methods: each runs only when its flag is still false.  `prep` and
`setupFit` abstract the externally-defined effects of those calls. -/
def afterFitSetup {δ κ : Type} (prep setupFit : DBDataModule δ κ → DBDataModule δ κ)
    (m : DBDataModule δ κ) : DBDataModule δ κ :=
  let m1 := if m.has_prepared_data then m else prep m
  if m1.has_setup_fit then m1 else setupFit m1

/-- `DBDataModule.val_dataloader` (db_dataset.py lines 186-196):
`has_val` is the short-circuit conjunction `splits is not None and
len(splits) >= 2 and splits[1] is not None`; without it the method
returns `None`, otherwise it builds a `DataLoader` over `val_ds` with a
copy of the stored kwargs whose `shuffle` entry is the argument. -/
def DBDataModule.val_dataloader {δ κ : Type}
    (prep setupFit : DBDataModule δ κ → DBDataModule δ κ)
    (m : DBDataModule δ κ) (shuffle : Bool) : Option (DataLoader δ κ) :=
  let has_val := match m.splits with
    | none => false
    | some s => decide (2 ≤ s.length) && decide (s[1]? ≠ some none)
  if has_val then
    let m2 := afterFitSetup prep setupFit m
    some (DataLoader.mk m2.val_ds m2.loader_kwargs (some shuffle))
  else none

/-- Python dict assignment `d[k] = v`: overwrite in place if the key is
present, append otherwise. -/
def dictInsert {γ : Type} (d : List (String × γ)) (k : String) (v : γ) : List (String × γ) :=
  if d.any (fun p => p.1 == k) then d.map (fun p => if p.1 == k then (k, v) else p)
  else d ++ [(k, v)]

/-- Python `d.update(kvs)`. -/
def dictUpdate {γ : Type} (d : List (String × γ)) (kvs : List (String × γ)) : List (String × γ) :=
  kvs.foldl (fun acc kv => dictInsert acc kv.1 kv.2) d

/-- The metadata of a `DBDataset` that `hparams` reads: the feature names
and, for each feature, the `attrs.items()` of the stored array. -/
structure DBDatasetMeta (γ : Type) where
  features : List String
  attrs : String → List (String × γ)

/-- The dict comprehension `this_feat` of `DBDataset.hparams`
(db_dataset.py line 101): the attrs of one feature under composed keys. -/
def DBDatasetMeta.keyedAttrs {γ : Type} (db : DBDatasetMeta γ) (feat : String) : List (String × γ) :=
  (db.attrs feat).map (fun kv => (feat ++ "_" ++ kv.1, kv.2))

/-- `DBDataset.hparams` (db_dataset.py lines 97-103): starting from an
empty dict, update with `{feat + "_" + k: v}` for every feature. -/
def DBDatasetMeta.hparams {γ : Type} (db : DBDatasetMeta γ) : List (String × γ) :=
  db.features.foldl (fun params feat => dictUpdate params (db.keyedAttrs feat)) []

/-- The composed `hparams` entries in generation order, used to state when
no two features collide on a composed key. -/
def DBDatasetMeta.flatKeyed {γ : Type} (db : DBDatasetMeta γ) : List (String × γ) :=
  (db.features.map db.keyedAttrs).flatten

/-- Abbreviation used in the receptive-field proofs: a list of layer
indices paired with the receptive field `k * k ^ i` a `WaveNetLayer` of
kernel size `k` has at index `i`. -/
def pairsOf (k : Int) (idxs : List Nat) : List (Nat × Int) :=
  idxs.map (fun i => (i, k * k ^ i))

/-- The flattened layer indices of a block list, exactly as `layers_`
generates them: `[i for block in n_layers for i in range(block)]`. -/
def joinRanges (blocks : List Nat) : List Nat := (blocks.map List.range).flatten

/-- The closed form of claim C1: the sum of `kernel_size ^ n_b` over the
blocks. -/
def blockPowSum (k : Int) (blocks : List Nat) : Int := (blocks.map (fun b => k ^ b)).sum

/-- Concrete network used by witnesses: two layers in one block, kernel
size 2, no padding. -/
def netA : WNNetwork := WNNetwork.mk [2] 2 0 0

/-- Concrete degenerate network used by counterexamples: a single block of
zero layers, kernel size 2, no padding. -/
def netZero : WNNetwork := WNNetwork.mk [0] 2 0 0

/-- Concrete dataset metadata with collision-free composed keys, used by
the witness of C9. -/
def dbOk : DBDatasetMeta Int :=
  DBDatasetMeta.mk ["u", "w"]
    (fun s => if s = "u" then [("a", 1)] else if s = "w" then [("b", 2)] else [])

/-- Concrete dataset metadata where two distinct (feature, attribute)
pairs compose to the same key `a_b_c`, used by the counterexample of
C9. -/
def dbCollide : DBDatasetMeta Int :=
  DBDatasetMeta.mk ["a", "a_b"]
    (fun s => if s = "a" then [("b_c", 1)] else if s = "a_b" then [("c", 2)] else [])

/-- Concrete datamodule state used by the witness of C8. -/
def modA : DBDataModule Nat Nat :=
  DBDataModule.mk (some [some (PyNum.i 8), some (PyNum.i 2)]) 7 5 true true

/-! Lemmas about the receptive-field loop. -/

theorem rfLoop_eq_wnRfIdx (ls : List WaveNetLayer) :
    rfLoop ls = wnRfIdx (ls.map (fun l => (l.layer_i, l.receptive_field))) := by
  induction ls with
  | nil => rfl
  | cons l rest ih =>
    cases rest with
    | nil => rfl
    | cons l2 rest2 =>
      simp only [List.map_cons, rfLoop, wnRfIdx] at *
      rw [ih]

theorem layers_map {β : Type} (net : WNNetwork) (g : WaveNetLayer → β) :
    net.layers.map g = (joinRanges net.n_layers).map
      (fun i => g (WaveNetLayer.mk i net.kernel_size net.pad_input net.accum_outputs 1)) := by
  unfold WNNetwork.layers joinRanges
  rw [List.map_flatten, List.map_flatten, List.map_map, List.map_map]
  congr 1
  apply List.map_congr_left
  intro b _
  simp [List.map_map]

theorem layers_map_view (net : WNNetwork) :
    net.layers.map (fun l => (l.layer_i, l.receptive_field)) =
      pairsOf net.kernel_size (joinRanges net.n_layers) := by
  rw [layers_map]
  rfl

theorem receptive_field_eq_idx (net : WNNetwork) :
    net.receptive_field = wnRfIdx (pairsOf net.kernel_size (joinRanges net.n_layers)) := by
  rw [WNNetwork.receptive_field, rfLoop_eq_wnRfIdx, layers_map_view]

theorem wnRfIdx_pairs_range' (k : Int) :
    ∀ m j : Nat, wnRfIdx (pairsOf k (List.range' j (m + 1))) = k ^ (j + m + 1) := by
  intro m
  induction m with
  | zero =>
    intro j
    simp [List.range'_one, pairsOf, wnRfIdx, pow_succ, mul_comm]
  | succ n ih =>
    intro j
    rw [List.range'_succ, List.range'_succ]
    show wnRfIdx ((j, k * k ^ j) :: (j + 1, k * k ^ (j + 1)) ::
      pairsOf k (List.range' (j + 1 + 1) n)) = _
    rw [wnRfIdx]
    have hfold : (((j : Nat) + 1, k * k ^ (j + 1)) :: pairsOf k (List.range' (j + 1 + 1) n))
        = pairsOf k (List.range' (j + 1) (n + 1)) := by
      rw [List.range'_succ]
      rfl
    rw [hfold, ih (j + 1)]
    have : j + 1 + n + 1 = j + (n + 1) + 1 := by omega
    simp [this]

theorem wnRfIdx_pairs_range'_append (k : Int) :
    ∀ (m j : Nat) (t : List Nat),
    wnRfIdx (pairsOf k (List.range' j (m + 1) ++ 0 :: t)) =
      (k ^ (j + m + 1) - 1) + wnRfIdx (pairsOf k (0 :: t)) := by
  intro m
  induction m with
  | zero =>
    intro j t
    rw [List.range'_one]
    show wnRfIdx ((j, k * k ^ j) :: (0, k * k ^ 0) :: pairsOf k t) = _
    rw [wnRfIdx]
    have h0 : wnRfIdx ((0, k * k ^ 0) :: pairsOf k t) = wnRfIdx (pairsOf k (0 :: t)) := rfl
    rw [h0, if_pos rfl]
    have hj : j + 0 + 1 = j + 1 := by omega
    rw [hj, pow_succ]
    ring
  | succ n ih =>
    intro j t
    rw [List.range'_succ]
    show wnRfIdx ((j, k * k ^ j) :: pairsOf k (List.range' (j + 1) (n + 1) ++ 0 :: t)) = _
    have hexp : List.range' (j + 1) (n + 1) ++ 0 :: t
        = (j + 1) :: (List.range' (j + 1 + 1) n ++ 0 :: t) := by
      rw [List.range'_succ]
      rfl
    rw [hexp]
    show wnRfIdx ((j, k * k ^ j) :: (j + 1, k * k ^ (j + 1)) ::
      pairsOf k (List.range' (j + 1 + 1) n ++ 0 :: t)) = _
    rw [wnRfIdx]
    have hfold : (((j : Nat) + 1, k * k ^ (j + 1)) ::
        pairsOf k (List.range' (j + 1 + 1) n ++ 0 :: t))
        = pairsOf k (List.range' (j + 1) (n + 1) ++ 0 :: t) := by
      rw [hexp]
      rfl
    rw [hfold, ih (j + 1) t]
    have : j + 1 + n + 1 = j + (n + 1) + 1 := by omega
    simp [this]

theorem joinRanges_cons (b : Nat) (rest : List Nat) :
    joinRanges (b :: rest) = List.range b ++ joinRanges rest := by
  simp [joinRanges]

theorem joinRanges_nil_of_sum_zero :
    ∀ blocks : List Nat, blocks.sum = 0 → joinRanges blocks = [] := by
  intro blocks
  induction blocks with
  | nil => intro _; rfl
  | cons b rest ih =>
    intro h
    rw [joinRanges_cons]
    have hb : b = 0 := by simp at h; omega
    have hr : rest.sum = 0 := by simp at h; omega
    rw [hb, ih hr]
    rfl

theorem joinRanges_cons_zero :
    ∀ blocks : List Nat, 1 ≤ blocks.sum → ∃ t, joinRanges blocks = 0 :: t := by
  intro blocks
  induction blocks with
  | nil => intro h; simp at h
  | cons b rest ih =>
    intro h
    rw [joinRanges_cons]
    cases b with
    | zero =>
      have hr : 1 ≤ rest.sum := by simp at h; omega
      obtain ⟨t, ht⟩ := ih hr
      exact ⟨t, by simp [ht]⟩
    | succ b' =>
      refine ⟨List.range' 1 b' ++ joinRanges rest, ?_⟩
      rw [List.range_eq_range', List.range'_succ]
      rfl

theorem blockPowSum_of_sum_zero (k : Int) :
    ∀ blocks : List Nat, blocks.sum = 0 → blockPowSum k blocks = blocks.length := by
  intro blocks
  induction blocks with
  | nil => intro _; rfl
  | cons b rest ih =>
    intro h
    have hb : b = 0 := by simp at h; omega
    have hr : rest.sum = 0 := by simp at h; omega
    have hstep : blockPowSum k (b :: rest) = k ^ b + blockPowSum k rest := by
      simp [blockPowSum]
    rw [hstep, hb, ih hr, pow_zero]
    simp only [List.length_cons]
    push_cast
    ring

theorem wnRfIdx_joinRanges (k : Int) :
    ∀ blocks : List Nat, 1 ≤ blocks.sum →
    wnRfIdx (pairsOf k (joinRanges blocks)) =
      blockPowSum k blocks - ((blocks.length : Int) - 1) := by
  intro blocks
  induction blocks with
  | nil => intro h; simp at h
  | cons b rest ih =>
    intro h
    rw [joinRanges_cons]
    cases b with
    | zero =>
      have hr : 1 ≤ rest.sum := by simp at h; omega
      simp only [List.range_zero, List.nil_append]
      rw [ih hr]
      simp [blockPowSum]
      ring
    | succ b' =>
      by_cases hr : rest.sum = 0
      · rw [joinRanges_nil_of_sum_zero rest hr, List.append_nil]
        rw [List.range_eq_range', wnRfIdx_pairs_range']
        have hS : blockPowSum k rest = rest.length := blockPowSum_of_sum_zero k rest hr
        simp [blockPowSum] at hS ⊢
        rw [hS]
        ring
      · obtain ⟨t, ht⟩ := joinRanges_cons_zero rest (by omega)
        rw [ht, List.range_eq_range', wnRfIdx_pairs_range'_append, ← ht, ih (by omega)]
        simp [blockPowSum]
        ring

theorem sum_shiftTerms_range (k : Int) :
    ∀ b : Nat, ((List.range b).map (fun i => (k - 1) * k ^ i)).sum = k ^ b - 1 := by
  intro b
  induction b with
  | zero => simp
  | succ n ih =>
    rw [List.range_succ, List.map_append, List.sum_append, ih]
    rw [pow_succ]
    simp
    ring

theorem sum_shiftTerms_joinRanges (k : Int) :
    ∀ blocks : List Nat,
    ((joinRanges blocks).map (fun i => (k - 1) * k ^ i)).sum =
      blockPowSum k blocks - (blocks.length : Int) := by
  intro blocks
  induction blocks with
  | nil => simp [joinRanges, blockPowSum]
  | cons b rest ih =>
    rw [joinRanges_cons, List.map_append, List.sum_append, ih, sum_shiftTerms_range]
    simp [blockPowSum]
    ring

theorem receptive_field_closed (net : WNNetwork) (hL : 1 ≤ net.n_layers.sum) :
    net.receptive_field =
      blockPowSum net.kernel_size net.n_layers - ((net.n_layers.length : Int) - 1) := by
  rw [receptive_field_eq_idx]
  exact wnRfIdx_joinRanges _ _ hL

theorem sum_layer_dilTerms (net : WNNetwork) :
    (net.layers.map (fun l => (net.kernel_size - 1) * l.dilation)).sum =
      blockPowSum net.kernel_size net.n_layers - (net.n_layers.length : Int) := by
  rw [layers_map]
  have hfun : (fun i => (net.kernel_size - 1) *
        (WaveNetLayer.mk i net.kernel_size net.pad_input net.accum_outputs 1).dilation)
      = fun i : Nat => (net.kernel_size - 1) * net.kernel_size ^ i := by
    funext i
    rfl
  rw [hfun]
  exact sum_shiftTerms_joinRanges net.kernel_size net.n_layers

theorem shift_pad_zero (net : WNNetwork) (hp : net.pad_input = 0) :
    net.shift = (blockPowSum net.kernel_size net.n_layers - (net.n_layers.length : Int)) + 1 := by
  rw [WNNetwork.shift, hp]
  norm_num
  have hmap : net.layers.map WaveNetLayer.shift_diff =
      net.layers.map (fun l => (net.kernel_size - 1) * l.dilation) := by
    rw [layers_map, layers_map]
    apply List.map_congr_left
    intro i _
    simp [WaveNetLayer.shift_diff, hp]
  rw [hmap, sum_layer_dilTerms]

/-- C1 (amended): for a `WNNetwork` with `kernel_size ≥ 2` and at least one
layer in total, the receptive field computed by the `__post_init__` loop
equals `1 + Σ over all layers of (kernel_size - 1) * dilation`, which
equals `Σ over blocks of kernel_size ^ n_b` minus `(number of blocks - 1)`.
The original claim, without the at-least-one-layer hypothesis, fails on a
network whose blocks hold zero layers, see the counterexample. -/
theorem C1_receptive_field_closed_form (net : WNNetwork)
    (hk : 2 ≤ net.kernel_size) (hL : 1 ≤ net.n_layers.sum) :
    net.receptive_field
        = 1 + (net.layers.map (fun l => (net.kernel_size - 1) * l.dilation)).sum ∧
      net.receptive_field
        = blockPowSum net.kernel_size net.n_layers - ((net.n_layers.length : Int) - 1) := by
  have h2 := receptive_field_closed net hL
  refine ⟨?_, h2⟩
  rw [h2, sum_layer_dilTerms]
  ring

/-- Witness for C1 at a concrete network: one block of two layers with
kernel size 2 gives receptive field 4 = 2 ^ 2. -/
theorem C1_receptive_field_closed_form_witness :
    2 ≤ netA.kernel_size ∧ 1 ≤ netA.n_layers.sum ∧
    (netA.receptive_field
        = 1 + (netA.layers.map (fun l => (netA.kernel_size - 1) * l.dilation)).sum ∧
      netA.receptive_field
        = blockPowSum netA.kernel_size netA.n_layers - ((netA.n_layers.length : Int) - 1)) :=
  ⟨by decide, by decide, C1_receptive_field_closed_form netA (by decide) (by decide)⟩

/-- Counterexample to C1 as stated: the network with `n_layers = (0,)` and
`kernel_size = 2` has no layers, so the loop returns 0, while both closed
forms of the claim evaluate to 1. -/
theorem C1_counterexample :
    2 ≤ netZero.kernel_size ∧
    ¬(netZero.receptive_field
        = 1 + (netZero.layers.map (fun l => (netZero.kernel_size - 1) * l.dilation)).sum ∧
      netZero.receptive_field
        = blockPowSum netZero.kernel_size netZero.n_layers - ((netZero.n_layers.length : Int) - 1)) := by
  decide

/-- C2 (amended): for a `WNNetwork` with `pad_input = 0` and at least one
layer in total, the shift computed in `__post_init__` (the sum of the
layers shift_diff values plus 1) equals the receptive field computed
there.  The original claim fails on a network with zero layers, where the
shift is 1 but the receptive field is 0, see the counterexample. -/
theorem C2_shift_eq_receptive_field (net : WNNetwork)
    (hp : net.pad_input = 0) (hL : 1 ≤ net.n_layers.sum) :
    net.shift = net.receptive_field := by
  rw [shift_pad_zero net hp, receptive_field_closed net hL]
  ring

/-- Witness for C2 at a concrete network: shift = receptive field = 4. -/
theorem C2_shift_eq_receptive_field_witness :
    netA.pad_input = 0 ∧ 1 ≤ netA.n_layers.sum ∧ netA.shift = netA.receptive_field :=
  ⟨rfl, by decide, C2_shift_eq_receptive_field netA rfl (by decide)⟩

/-- Counterexample to C2 as stated: the empty network with `pad_input = 0`
has shift 0 + 1 = 1 but receptive field 0. -/
theorem C2_counterexample :
    netZero.pad_input = 0 ∧ netZero.shift ≠ netZero.receptive_field := by
  decide

/-- C7: the dilation property of every `WaveNetLayer` is the kernel size
raised to the power of the layer index; definitional in the embedding as
in the source (wavenet.py line 31). -/
theorem C7_dilation_pow (l : WaveNetLayer) :
    l.dilation = l.kernel_size ^ l.layer_i := rfl

/-! Lemmas comparing the two receptive-field loops (claim C5). -/

theorem freq_getLast_some (a : Nat × Int) (t : List (Nat × Int)) :
    ∃ y, (a :: t).getLast? = some y := by
  induction t generalizing a with
  | nil => exact ⟨a, rfl⟩
  | cons b t2 ih =>
    obtain ⟨y, hy⟩ := ih b
    exact ⟨y, by rw [List.getLast?_cons_cons]; exact hy⟩

/-- C5 (amended): on every nonempty sequence of abstract layers carrying a
layer index and a receptive-field value, the loop of
`FreqNet.receptive_field` computes the same total as the loop of
`WNNetwork.__post_init__`: each layer whose successor starts a block
contributes its receptive field minus one, the final layer its receptive
field in full.  On the empty sequence the FreqNet loop indexes
`self.layers[-1]` and raises, while the WNNetwork loop returns 0, so the
original claim needs the nonemptiness hypothesis, see the
counterexample. -/
theorem C5_freqnet_wavenet_rf_agree (ls : List (Nat × Int)) (h : ls ≠ []) :
    FreqNet.receptive_field ls = some (wnRfIdx ls) := by
  induction ls with
  | nil => exact absurd rfl h
  | cons a t ih =>
    cases t with
    | nil =>
      simp [FreqNet.receptive_field, freqBlockRf, wnRfIdx]
    | cons b t2 =>
      obtain ⟨y, hy⟩ := freq_getLast_some b t2
      have hval : (freqBlockRf (b :: t2) ++ [y.2]).sum = wnRfIdx (b :: t2) := by
        have := ih (by simp)
        rw [FreqNet.receptive_field, hy] at this
        exact Option.some.injEq _ _ ▸ (by simpa using this)
      rw [FreqNet.receptive_field, List.getLast?_cons_cons, hy]
      rw [freqBlockRf, wnRfIdx]
      show some (((if b.1 = 0 then [a.2 - 1] else []) ++ freqBlockRf (b :: t2) ++ [y.2]).sum)
          = some ((if b.1 = 0 then a.2 - 1 else 0) + wnRfIdx (b :: t2))
      rw [List.append_assoc, List.sum_append, hval]
      by_cases hb : b.1 = 0
      · simp [hb]
      · simp [hb]

/-- Witness for C5 at a concrete layer sequence of two blocks. -/
theorem C5_freqnet_wavenet_rf_agree_witness :
    ([((0 : Nat), (5 : Int)), (1, 7), (0, 4)] : List (Nat × Int)) ≠ [] ∧
    FreqNet.receptive_field [((0 : Nat), (5 : Int)), (1, 7), (0, 4)] =
      some (wnRfIdx [((0 : Nat), (5 : Int)), (1, 7), (0, 4)]) :=
  ⟨by decide, C5_freqnet_wavenet_rf_agree [(0, 5), (1, 7), (0, 4)] (by decide)⟩

/-- Counterexample to C5 as stated: on the empty layer sequence the
FreqNet loop yields no value (IndexError) while the WNNetwork loop yields
0. -/
theorem C5_counterexample :
    ¬ FreqNet.receptive_field ([] : List (Nat × Int)) = some (wnRfIdx []) := by
  decide

/-! Lemmas about output lengths (claim C6). -/

theorem mem_layers (net : WNNetwork) (l : WaveNetLayer) (hl : l ∈ net.layers) :
    l.kernel_size = net.kernel_size ∧ l.pad_input = net.pad_input ∧ l.stride = 1 := by
  unfold WNNetwork.layers at hl
  rw [List.mem_flatten] at hl
  obtain ⟨bl, hbl, hlbl⟩ := hl
  rw [List.mem_map] at hbl
  obtain ⟨b, _, rfl⟩ := hbl
  rw [List.mem_map] at hlbl
  obtain ⟨i, _, rfl⟩ := hlbl
  exact ⟨rfl, rfl, rfl⟩

theorem output_length_pad_zero (l : WaveNetLayer) (hp : l.pad_input = 0)
    (hs : l.stride = 1) (m : Int) :
    l.output_length m = m - (l.kernel_size - 1) * l.dilation := by
  rw [WaveNetLayer.output_length, hp, hs, if_neg (by norm_num), Int.fdiv_one]
  ring

theorem allOutLens_length (ls : List WaveNetLayer) :
    ∀ n : Int, (allOutLens ls n).length = ls.length := by
  induction ls with
  | nil => intro n; rfl
  | cons l rest ih => intro n; simp [allOutLens, ih]

theorem allOutLens_getLast (ls : List WaveNetLayer)
    (hstr : ∀ l ∈ ls, l.pad_input = 0 ∧ l.stride = 1) :
    ∀ n : Int, ls ≠ [] →
    (allOutLens ls n).getLast? =
      some (n - (ls.map (fun l => (l.kernel_size - 1) * l.dilation)).sum) := by
  induction ls with
  | nil => intro n h; exact absurd rfl h
  | cons l rest ih =>
    intro n _
    obtain ⟨hp, hs⟩ := hstr l (by simp)
    have ho : l.output_length n = n - (l.kernel_size - 1) * l.dilation :=
      output_length_pad_zero l hp hs n
    cases rest with
    | nil =>
      simp [allOutLens, ho]
    | cons l2 r2 =>
      rw [allOutLens]
      have hcons : ∃ o2 t2, allOutLens (l2 :: r2) (l.output_length n) = o2 :: t2 := by
        exact ⟨_, _, rfl⟩
      obtain ⟨o2, t2, hct⟩ := hcons
      rw [hct, List.getLast?_cons_cons, ← hct]
      rw [ih (fun x hx => hstr x (by simp [hx])) (l.output_length n) (by simp)]
      rw [ho]
      simp only [List.map_cons, List.sum_cons]
      congr 1
      ring

/-- C6 (amended): for a `WNNetwork` with `pad_input = 0`, at least one
layer in total, and any input length `n ≥ receptive_field`, every layer
shortens its input by `(kernel_size - 1) * dilation`, and the last entry
of `all_output_lengths n` is `n - receptive_field + 1`.  On a network
with zero layers `all_output_lengths` is empty and has no last entry
(Python `[-1]` raises IndexError), so the original claim needs the
at-least-one-layer hypothesis, see the counterexample. -/
theorem C6_output_lengths (net : WNNetwork) (hp : net.pad_input = 0)
    (hL : 1 ≤ net.n_layers.sum) (n : Int) (hn : net.receptive_field ≤ n) :
    (∀ l ∈ net.layers, ∀ m : Int,
        l.output_length m = m - (net.kernel_size - 1) * l.dilation) ∧
    (net.all_output_lengths n).getLast? = some (n - net.receptive_field + 1) := by
  constructor
  · intro l hl m
    obtain ⟨hk, hpl, hs⟩ := mem_layers net l hl
    rw [output_length_pad_zero l (hpl.trans hp) hs, hk]
  · have hne : net.layers ≠ [] := by
      intro hnil
      have := layers_map_view net
      rw [hnil] at this
      obtain ⟨t, ht⟩ := joinRanges_cons_zero net.n_layers hL
      rw [ht] at this
      simp [pairsOf] at this
    rw [WNNetwork.all_output_lengths,
      allOutLens_getLast net.layers
        (fun l hl => ⟨(mem_layers net l hl).2.1.trans hp, (mem_layers net l hl).2.2⟩) n hne]
    have hsum : (net.layers.map (fun l => (l.kernel_size - 1) * l.dilation)).sum
        = (net.layers.map (fun l => (net.kernel_size - 1) * l.dilation)).sum := by
      apply congrArg
      apply List.map_congr_left
      intro l hl
      rw [(mem_layers net l hl).1]
    rw [hsum, sum_layer_dilTerms, receptive_field_closed net hL]
    congr 1
    ring

/-- Witness for C6 at a concrete network: kernel 2, two layers, input
length 5; the last output length is 2 = 5 - 4 + 1. -/
theorem C6_output_lengths_witness :
    netA.pad_input = 0 ∧ 1 ≤ netA.n_layers.sum ∧ netA.receptive_field ≤ 5 ∧
    (netA.all_output_lengths 5).getLast? = some (5 - netA.receptive_field + 1) :=
  ⟨rfl, by decide, by decide,
    (C6_output_lengths netA rfl (by decide) 5 (by decide)).2⟩

/-- Counterexample to C6 as stated: the empty network with `pad_input = 0`
satisfies `n = 0 ≥ receptive_field = 0`, but `all_output_lengths` is the
empty tuple and has no last entry equal to `n - receptive_field + 1`. -/
theorem C6_counterexample :
    netZero.pad_input = 0 ∧ netZero.receptive_field ≤ 0 ∧
    ¬((∀ l ∈ netZero.layers, ∀ m : Int,
        l.output_length m = m - (netZero.kernel_size - 1) * l.dilation) ∧
      (netZero.all_output_lengths 0).getLast? = some (0 - netZero.receptive_field + 1)) := by
  refine ⟨rfl, by decide, fun h => ?_⟩
  have h2 := h.2
  have hempty : netZero.all_output_lengths 0 = [] := rfl
  rw [hempty] at h2
  simp at h2

/-! Lemmas about the splitting machinery (claims C3, C4, C10). -/

theorem filterMap_id_cons_none {γ : Type} (rest : List (Option γ)) :
    List.filterMap id (none :: rest) = List.filterMap id rest := rfl

theorem filterMap_id_cons_some {γ : Type} (y : γ) (rest : List (Option γ)) :
    List.filterMap id (some y :: rest) = y :: List.filterMap id rest := rfl

theorem popReassemble_succ {α : Type} (nones : List Nat) (t j : Nat) (sets : List α) :
    popReassemble nones (t + 1) j sets =
      if j ∈ nones then (popReassemble nones t (j + 1) sets).map (fun l => none :: l)
      else
        match sets with
        | [] => none
        | s :: rest => (popReassemble nones t (j + 1) rest).map (fun l => some s :: l) := rfl

theorem interleave_nil {α β : Type} (sets : List α) :
    interleave ([] : List (Option β)) sets = [] := by
  cases sets <;> rfl

theorem interleave_cons_none {α β : Type} (rest : List (Option β)) (sets : List α) :
    interleave (none :: rest) sets = none :: interleave rest sets := by
  cases sets <;> rfl

theorem interleave_cons_some {α β : Type} (y : β) (rest : List (Option β)) (s : α) (sets : List α) :
    interleave (some y :: rest) (s :: sets) = some s :: interleave rest sets := rfl

theorem noneIndicesFrom_ge :
    ∀ (l : List (Option PyNum)) (j m : Nat), m ∈ noneIndicesFrom j l → j ≤ m := by
  intro l
  induction l with
  | nil => intro j m hm; simp [noneIndicesFrom] at hm
  | cons x rest ih =>
    intro j m hm
    cases x with
    | none =>
      rw [noneIndicesFrom] at hm
      rcases List.mem_cons.mp hm with h | h
      · omega
      · have := ih (j + 1) m h; omega
    | some y =>
      rw [noneIndicesFrom] at hm
      have := ih (j + 1) m hm; omega

theorem noneIndicesFrom_ne_nil :
    ∀ (l : List (Option PyNum)) (j : Nat), l.any Option.isNone = true →
      noneIndicesFrom j l ≠ [] := by
  intro l
  induction l with
  | nil => intro j h; simp at h
  | cons x rest ih =>
    intro j h
    cases x with
    | none => rw [noneIndicesFrom]; simp
    | some y =>
      rw [noneIndicesFrom]
      exact ih (j + 1) (by simpa using h)

theorem noneIndicesFrom_length :
    ∀ (l : List (Option PyNum)) (j : Nat),
      (noneIndicesFrom j l).length + (l.filterMap id).length = l.length := by
  intro l
  induction l with
  | nil => intro j; rfl
  | cons x rest ih =>
    intro j
    cases x with
    | none =>
      rw [noneIndicesFrom, filterMap_id_cons_none]
      simp only [List.length_cons]
      have := ih (j + 1); omega
    | some y =>
      rw [noneIndicesFrom, filterMap_id_cons_some]
      simp only [List.length_cons]
      have := ih (j + 1); omega

theorem popReassemble_congr {α : Type} :
    ∀ (t : Nat) (j : Nat) (sets : List α) (A B : List Nat),
    (∀ m, j ≤ m → (m ∈ A ↔ m ∈ B)) →
    popReassemble A t j sets = popReassemble B t j sets := by
  intro t
  induction t with
  | zero => intro j sets A B _; rfl
  | succ t' ih =>
    intro j sets A B hAB
    rw [popReassemble_succ, popReassemble_succ]
    by_cases hj : j ∈ A
    · rw [if_pos hj, if_pos ((hAB j le_rfl).mp hj)]
      rw [ih (j + 1) sets A B (fun m hm => hAB m (by omega))]
    · rw [if_neg hj, if_neg (fun hb => hj ((hAB j le_rfl).mpr hb))]
      cases sets with
      | nil => rfl
      | cons s srest =>
        show Option.map (fun l => some s :: l) (popReassemble A t' (j + 1) srest)
            = Option.map (fun l => some s :: l) (popReassemble B t' (j + 1) srest)
        rw [ih (j + 1) srest A B (fun m hm => hAB m (by omega))]

theorem popReassemble_interleave :
    ∀ (splits : List (Option PyNum)) (j : Nat) {α : Type} (sets : List α),
    sets.length = (splits.filterMap id).length →
    popReassemble (noneIndicesFrom j splits) splits.length j sets
      = some (interleave splits sets) := by
  intro splits
  induction splits with
  | nil =>
    intro j α sets _
    rw [interleave_nil]
    rfl
  | cons x rest ih =>
    intro j α sets hlen
    cases x with
    | none =>
      show popReassemble (j :: noneIndicesFrom (j + 1) rest) (rest.length + 1) j sets = _
      rw [popReassemble_succ, if_pos (List.mem_cons_self _ _)]
      have hdrop : popReassemble (j :: noneIndicesFrom (j + 1) rest) rest.length (j + 1) sets
          = popReassemble (noneIndicesFrom (j + 1) rest) rest.length (j + 1) sets := by
        apply popReassemble_congr
        intro m hm
        constructor
        · intro h
          rcases List.mem_cons.mp h with h' | h'
          · omega
          · exact h'
        · intro h
          exact List.mem_cons_of_mem _ h
      rw [filterMap_id_cons_none] at hlen
      rw [hdrop, ih (j + 1) sets hlen, interleave_cons_none]
      rfl
    | some y =>
      show popReassemble (noneIndicesFrom (j + 1) rest) (rest.length + 1) j sets = _
      have hnot : j ∉ noneIndicesFrom (j + 1) rest := by
        intro hm
        have := noneIndicesFrom_ge rest (j + 1) j hm
        omega
      rw [popReassemble_succ, if_neg hnot]
      rw [filterMap_id_cons_some] at hlen
      cases sets with
      | nil => simp at hlen
      | cons s srest =>
        show Option.map (fun l => some s :: l)
            (popReassemble (noneIndicesFrom (j + 1) rest) rest.length (j + 1) srest)
          = some (interleave (some y :: rest) (s :: srest))
        rw [ih (j + 1) srest (by simpa using hlen), interleave_cons_some]
        rfl

theorem interleave_length {γ : Type} :
    ∀ (splits : List (Option γ)) {α : Type} (sets : List α),
    (splits.filterMap id).length ≤ sets.length →
    (interleave splits sets).length = splits.length := by
  intro splits
  induction splits with
  | nil => intro α sets _; rw [interleave_nil]; rfl
  | cons x rest ih =>
    intro α sets hlen
    cases x with
    | none =>
      rw [interleave_cons_none]
      simp only [List.length_cons]
      rw [filterMap_id_cons_none] at hlen
      rw [ih sets hlen]
    | some y =>
      rw [filterMap_id_cons_some] at hlen
      cases sets with
      | nil => simp at hlen
      | cons s srest =>
        rw [interleave_cons_some]
        simp only [List.length_cons]
        rw [ih srest (by simpa using hlen)]

theorem interleave_getElem_none {γ : Type} :
    ∀ (splits : List (Option γ)) {α : Type} (sets : List α),
    (splits.filterMap id).length ≤ sets.length →
    ∀ i : Nat, (interleave splits sets)[i]? = some none ↔ splits[i]? = some none := by
  intro splits
  induction splits with
  | nil => intro α sets _ i; rw [interleave_nil]; simp
  | cons x rest ih =>
    intro α sets hlen i
    cases x with
    | none =>
      rw [interleave_cons_none]
      cases i with
      | zero => simp
      | succ i' =>
        simp only [List.getElem?_cons_succ]
        rw [filterMap_id_cons_none] at hlen
        exact ih sets hlen i'
    | some y =>
      rw [filterMap_id_cons_some] at hlen
      cases sets with
      | nil => simp at hlen
      | cons s srest =>
        rw [interleave_cons_some]
        cases i with
        | zero => simp
        | succ i' =>
          simp only [List.getElem?_cons_succ]
          exact ih srest (by simpa using hlen) i'

theorem interleave_filterMap {γ : Type} :
    ∀ (splits : List (Option γ)) {α : Type} (sets : List α),
    sets.length = (splits.filterMap id).length →
    (interleave splits sets).filterMap id = sets := by
  intro splits
  induction splits with
  | nil =>
    intro α sets hlen
    simp at hlen
    rw [hlen, interleave_nil]
    rfl
  | cons x rest ih =>
    intro α sets hlen
    cases x with
    | none =>
      rw [interleave_cons_none, filterMap_id_cons_none]
      rw [filterMap_id_cons_none] at hlen
      exact ih sets hlen
    | some y =>
      rw [filterMap_id_cons_some] at hlen
      cases sets with
      | nil => simp at hlen
      | cons s srest =>
        rw [interleave_cons_some, filterMap_id_cons_some]
        rw [ih srest (by simpa using hlen)]

theorem interleave_no_none {γ : Type} :
    ∀ (splits : List (Option γ)), splits.any Option.isNone = false →
    ∀ {α : Type} (sets : List α), sets.length = (splits.filterMap id).length →
    interleave splits sets = sets.map some := by
  intro splits
  induction splits with
  | nil =>
    intro _ α sets hlen
    simp at hlen
    rw [hlen, interleave_nil]
    rfl
  | cons x rest ih =>
    intro hno α sets hlen
    cases x with
    | none => simp at hno
    | some y =>
      rw [filterMap_id_cons_some] at hlen
      cases sets with
      | nil => simp at hlen
      | cons s srest =>
        rw [interleave_cons_some, List.map_cons]
        rw [ih (by simpa using hno) srest (by simpa using hlen)]

theorem normalizedCounts_length (N : Int) (sp : List ℚ) :
    (normalizedCounts N sp).length = sp.length - 1 := by
  rw [normalizedCounts]
  simp

theorem floatBranch_length (N : Int) (sp : List PyNum) (hne : sp ≠ [])
    (sp2 : List PyNum) (hok : floatBranch N sp = .ok sp2) : sp2.length = sp.length := by
  rw [floatBranch] at hok
  split at hok
  · split at hok
    · exact absurd hok (by simp)
    · split at hok
      · exact absurd hok (by simp)
      · have hsp2 := (Except.ok.inj hok).symm
        rw [hsp2]
        simp only [List.length_map, List.length_append, normalizedCounts_length,
          List.length_map, List.length_cons, List.length_nil]
        have : 1 ≤ sp.length := List.length_pos.mpr hne
        omega
  · exact congrArg List.length (Except.ok.inj hok).symm

theorem floatBranch_ok_float (N : Int) (sp : List PyNum)
    (hall : sp.all PyNum.isFloat = true) (sp2 : List PyNum)
    (hok : floatBranch N sp = .ok sp2) :
    sp2 = (normalizedCounts N (sp.map PyNum.toFloat)
        ++ [N - (normalizedCounts N (sp.map PyNum.toFloat)).sum]).map PyNum.i := by
  rw [floatBranch, if_pos hall] at hok
  split at hok
  · exact absurd hok (by simp)
  · split at hok
    · exact absurd hok (by simp)
    · exact (Except.ok.inj hok).symm

theorem nonesAny_of_any (rest : List (Option PyNum)) (h : rest.any Option.isNone = true) :
    (noneIndicesFrom 1 rest).any (fun j => j != 0) = true := by
  have hne := noneIndicesFrom_ne_nil rest 1 h
  cases hcase : noneIndicesFrom 1 rest with
  | nil => exact absurd hcase hne
  | cons m ms =>
    have hm : 1 ≤ m := noneIndicesFrom_ge rest 1 m (hcase ▸ List.mem_cons_self _ _)
    simp only [List.any_cons, Bool.or_eq_true, bne_iff_ne]
    left
    omega

theorem split_ok_spec {α : Type} (rs : List PyNum → List α)
    (hrs : ∀ l, (rs l).length = l.length) (N : Int)
    (splits : List (Option PyNum)) (x : PyNum) (hhead : splits.head? = some (some x))
    (out : List (Option α)) (hok : DBDataset.split rs N splits = .ok out) :
    ∃ sp2, floatBranch N (splits.filterMap id) = .ok sp2 ∧
      out = interleave splits (rs sp2) := by
  cases splits with
  | nil => simp at hhead
  | cons x0 rest =>
  have hx0 : x0 = some x := by simpa using hhead
  subst hx0
  rw [DBDataset.split] at hok
  by_cases hany : rest.any Option.isNone = true
  · rw [if_pos (by simpa using hany), if_neg (by simp)] at hok
    cases hfb : floatBranch N ((some x :: rest).filterMap id) with
    | error e =>
      rw [splitCore, hfb] at hok
      exact absurd hok (by simp)
    | ok sp2 =>
      refine ⟨sp2, rfl, ?_⟩
      rw [splitCore, hfb] at hok
      simp only [] at hok
      have hidx : noneIndicesFrom 0 (some x :: rest) = noneIndicesFrom 1 rest := rfl
      rw [hidx, if_pos (nonesAny_of_any rest hany)] at hok
      have hlen2 : (rs sp2).length = ((some x :: rest).filterMap id).length := by
        rw [hrs sp2,
          floatBranch_length N _ (by rw [filterMap_id_cons_some]; simp) sp2 hfb]
      have htot : (rs sp2).length + (noneIndicesFrom 1 rest).length
          = (some x :: rest).length := by
        rw [hlen2, ← hidx]
        rw [Nat.add_comm]
        exact noneIndicesFrom_length (some x :: rest) 0
      rw [htot, ← hidx] at hok
      rw [popReassemble_interleave (some x :: rest) 0 (rs sp2) hlen2] at hok
      simpa using hok.symm
  · have hanyc : (some x :: rest).any Option.isNone = false := by
      simpa using (Bool.not_eq_true _).mp hany
    rw [if_neg (by simp [hanyc])] at hok
    cases hfb : floatBranch N ((some x :: rest).filterMap id) with
    | error e =>
      rw [splitCore, hfb] at hok
      exact absurd hok (by simp)
    | ok sp2 =>
      refine ⟨sp2, rfl, ?_⟩
      rw [splitCore, hfb] at hok
      simp only [] at hok
      rw [if_neg (by simp)] at hok
      have hlen2 : (rs sp2).length = ((some x :: rest).filterMap id).length := by
        rw [hrs sp2,
          floatBranch_length N _ (by rw [filterMap_id_cons_some]; simp) sp2 hfb]
      rw [interleave_no_none (some x :: rest) hanyc (rs sp2) hlen2]
      simpa using hok.symm

/-- C3: for every splits sequence whose first element is not absent and on
which `DBDataset.split` returns (instead of raising), the result has the
length of the input sequence, is `None` exactly at the input positions
that are `None`, and carries the subsets drawn by `random_split` (the
parameter `rs`, assumed to return one subset per requested length) at the
remaining positions in their original order. -/
theorem C3_split_preserves_positions {α : Type} (rs : List PyNum → List α)
    (hrs : ∀ l, (rs l).length = l.length) (N : Int)
    (splits : List (Option PyNum)) (x : PyNum) (hhead : splits.head? = some (some x))
    (out : List (Option α)) (hok : DBDataset.split rs N splits = .ok out) :
    out.length = splits.length ∧
    (∀ i : Nat, out[i]? = some none ↔ splits[i]? = some none) ∧
    (∃ sp2, floatBranch N (splits.filterMap id) = .ok sp2 ∧ out.filterMap id = rs sp2) := by
  obtain ⟨sp2, hfb, hout⟩ := split_ok_spec rs hrs N splits x hhead out hok
  have hne : splits.filterMap id ≠ [] := by
    cases splits with
    | nil => simp at hhead
    | cons h t =>
      cases h with
      | none => simp at hhead
      | some z => rw [filterMap_id_cons_some]; simp
  have hlen2 : (rs sp2).length = (splits.filterMap id).length := by
    rw [hrs sp2, floatBranch_length N _ hne sp2 hfb]
  subst hout
  exact ⟨interleave_length splits (rs sp2) (le_of_eq hlen2.symm),
    interleave_getElem_none splits (rs sp2) (le_of_eq hlen2.symm),
    sp2, hfb, interleave_filterMap splits (rs sp2) hlen2⟩

/-- Witness for C3 at a concrete input: integer splits `[3, None, 7]` with
`random_split` modelled by the identity; the result keeps the absent
middle position and the two subsets in order. -/
theorem C3_split_preserves_positions_witness :
    ([some (PyNum.i 3), none, some (PyNum.i 7)].head? = some (some (PyNum.i 3))) ∧
    DBDataset.split (fun l => l) 10 [some (PyNum.i 3), none, some (PyNum.i 7)]
      = .ok [some (PyNum.i 3), none, some (PyNum.i 7)] ∧
    ([some (PyNum.i 3), none, some (PyNum.i 7)] : List (Option PyNum)).length
        = ([some (PyNum.i 3), none, some (PyNum.i 7)] : List (Option PyNum)).length ∧
    (∀ i : Nat,
      ([some (PyNum.i 3), none, some (PyNum.i 7)] : List (Option PyNum))[i]? = some none ↔
      ([some (PyNum.i 3), none, some (PyNum.i 7)] : List (Option PyNum))[i]? = some none) ∧
    (∃ sp2, floatBranch 10 ([some (PyNum.i 3), none, some (PyNum.i 7)].filterMap id)
        = .ok sp2 ∧
      ([some (PyNum.i 3), none, some (PyNum.i 7)] : List (Option PyNum)).filterMap id
        = sp2) :=
  ⟨rfl, rfl,
    C3_split_preserves_positions (fun l => l) (fun _ => rfl) 10
      [some (PyNum.i 3), none, some (PyNum.i 7)] (PyNum.i 3) rfl
      [some (PyNum.i 3), none, some (PyNum.i 7)] rfl⟩

theorem filterMap_id_map_some {γ : Type} (l : List γ) : (l.map some).filterMap id = l := by
  induction l with
  | nil => rfl
  | cons a t ih => rw [List.map_cons, filterMap_id_cons_some, ih]

/-- C4: on a dataset of positive length `N` and a splits sequence whose
present entries are all floats, whenever `DBDataset.split` returns, the
subsets it drew are sized by normalizing each entry by the sum of the
entries, truncating `int(N * x)` for every entry but the last, and giving
the last subset `N` minus the sum of the other counts; these sizes sum
exactly to `N`.  `random_split` is instantiated with the identity so that
the sizes handed to it are visible in the result. -/
theorem C4_split_float_normalization (N : Int) (splits : List (Option PyNum))
    (hN : 0 < N) (hf : ∀ p ∈ splits.filterMap id, p.isFloat = true)
    (out : List (Option PyNum))
    (hok : DBDataset.split (fun l => l) N splits = .ok out) :
    out.filterMap id =
      (normalizedCounts N ((splits.filterMap id).map PyNum.toFloat)
        ++ [N - (normalizedCounts N ((splits.filterMap id).map PyNum.toFloat)).sum]).map
          PyNum.i ∧
    (normalizedCounts N ((splits.filterMap id).map PyNum.toFloat)
        ++ [N - (normalizedCounts N ((splits.filterMap id).map PyNum.toFloat)).sum]).sum
      = N := by
  have hall : (splits.filterMap id).all PyNum.isFloat = true := List.all_eq_true.mpr hf
  constructor
  · cases splits with
    | nil =>
      rw [DBDataset.split, if_neg (by simp)] at hok
      have hfb : floatBranch N (List.filterMap id ([] : List (Option PyNum)))
          = .ok ((normalizedCounts N ((List.filterMap id ([] : List (Option PyNum))).map
              PyNum.toFloat)
            ++ [N - (normalizedCounts N ((List.filterMap id
                ([] : List (Option PyNum))).map PyNum.toFloat)).sum]).map PyNum.i) := by
        have hc1 : (List.filterMap id ([] : List (Option PyNum))).all PyNum.isFloat
            = true := rfl
        have hc3 : ¬ (N - (normalizedCounts N ((List.filterMap id
            ([] : List (Option PyNum))).map PyNum.toFloat)).sum = 0) := by
          have hz : (normalizedCounts N ((List.filterMap id
              ([] : List (Option PyNum))).map PyNum.toFloat)).sum = 0 := rfl
          rw [hz]
          omega
        rw [floatBranch, if_pos hc1, if_neg (by simp), if_neg hc3]
      rw [splitCore, hfb] at hok
      simp only [] at hok
      rw [if_neg (by simp)] at hok
      have hout := (Except.ok.inj hok).symm
      rw [hout, filterMap_id_map_some]
    | cons x0 rest =>
      have hx0 : ∃ x, x0 = some x := by
        cases x0 with
        | none =>
          exfalso
          rw [DBDataset.split, if_pos (by simp), if_pos (by simp)] at hok
          exact absurd hok (by simp)
        | some z => exact ⟨z, rfl⟩
      obtain ⟨x, rfl⟩ := hx0
      obtain ⟨sp2, hfb, hout⟩ :=
        split_ok_spec (fun l => l) (fun _ => rfl) N (some x :: rest) x rfl out hok
      have hsp2 := floatBranch_ok_float N _ hall sp2 hfb
      have hlen2 : sp2.length = ((some x :: rest).filterMap id).length :=
        floatBranch_length N _ (by rw [filterMap_id_cons_some]; simp) sp2 hfb
      subst hout
      rw [interleave_filterMap (some x :: rest) sp2 hlen2]
      exact hsp2
  · rw [List.sum_append]
    simp

/-- Witness for C4 at a concrete input: `N = 10` and float proportions
`[0.8, 0.2]` produce subset sizes `[8, 2]`, which sum to 10. -/
theorem C4_split_float_normalization_witness :
    DBDataset.split (fun l => l) 10 [some (PyNum.f (4 / 5)), some (PyNum.f (1 / 5))]
      = .ok [some (PyNum.i 8), some (PyNum.i 2)] ∧
    ([some (PyNum.i 8), some (PyNum.i 2)] : List (Option PyNum)).filterMap id
      = (normalizedCounts 10
            ((([some (PyNum.f (4 / 5)), some (PyNum.f (1 / 5))] :
              List (Option PyNum)).filterMap id).map PyNum.toFloat)
        ++ [10 - (normalizedCounts 10
            ((([some (PyNum.f (4 / 5)), some (PyNum.f (1 / 5))] :
              List (Option PyNum)).filterMap id).map PyNum.toFloat)).sum]).map PyNum.i ∧
    (normalizedCounts 10
            ((([some (PyNum.f (4 / 5)), some (PyNum.f (1 / 5))] :
              List (Option PyNum)).filterMap id).map PyNum.toFloat)
        ++ [10 - (normalizedCounts 10
            ((([some (PyNum.f (4 / 5)), some (PyNum.f (1 / 5))] :
              List (Option PyNum)).filterMap id).map PyNum.toFloat)).sum]).sum = 10 := by
  have hsp : (([some (PyNum.f (4 / 5)), some (PyNum.f (1 / 5))] :
      List (Option PyNum)).filterMap id) = [PyNum.f (4 / 5), PyNum.f (1 / 5)] := rfl
  have htf : ([PyNum.f (4 / 5), PyNum.f (1 / 5)].map PyNum.toFloat)
      = [(4 : ℚ) / 5, (1 : ℚ) / 5] := rfl
  have hnc : normalizedCounts 10 [(4 : ℚ) / 5, (1 : ℚ) / 5] = [8] := by
    rw [normalizedCounts]
    have hsum : ([(4 : ℚ) / 5, (1 : ℚ) / 5]).sum = 1 := by
      simp only [List.sum_cons, List.sum_nil]
      norm_num
    rw [hsum]
    simp only [List.map_cons, List.map_nil, List.dropLast_cons₂, List.dropLast_single]
    rw [pyint]
    norm_num
  have hfb : floatBranch 10 [PyNum.f (4 / 5), PyNum.f (1 / 5)]
      = .ok [PyNum.i 8, PyNum.i 2] := by
    have h1 : ([PyNum.f (4 / 5), PyNum.f (1 / 5)].all PyNum.isFloat) = true := rfl
    have h2 : ¬ ([PyNum.f (4 / 5), PyNum.f (1 / 5)] ≠ [] ∧
        (([PyNum.f (4 / 5), PyNum.f (1 / 5)]).map PyNum.toFloat).sum = 0) := by
      rw [htf]
      intro hand
      have hz := hand.2
      simp only [List.sum_cons, List.sum_nil] at hz
      norm_num at hz
    have h3 : ¬ ((10 : Int) - (normalizedCounts 10
        (([PyNum.f (4 / 5), PyNum.f (1 / 5)]).map PyNum.toFloat)).sum = 0) := by
      rw [htf, hnc]
      decide
    rw [floatBranch, if_pos h1, if_neg h2, htf, hnc, if_neg (by rw [← hnc, ← htf]; exact h3)]
    decide
  have hsplit : DBDataset.split (fun l => l) 10
      [some (PyNum.f (4 / 5)), some (PyNum.f (1 / 5))]
      = .ok [some (PyNum.i 8), some (PyNum.i 2)] := by
    rw [DBDataset.split, if_neg (by decide), hsp, splitCore, hfb]
    rfl
  refine ⟨hsplit, ?_, ?_⟩
  · exact (C4_split_float_normalization 10
      [some (PyNum.f (4 / 5)), some (PyNum.f (1 / 5))] (by decide) (by decide)
      [some (PyNum.i 8), some (PyNum.i 2)] hsplit).1
  · exact (C4_split_float_normalization 10
      [some (PyNum.f (4 / 5)), some (PyNum.f (1 / 5))] (by decide) (by decide)
      [some (PyNum.i 8), some (PyNum.i 2)] hsplit).2

/-! Lemmas for claim C10. -/

theorem floatBranch_lastZero_iff (N : Int) (sp : List PyNum) :
    floatBranch N sp = .error .valueErrorLastZero ↔
      (sp.all PyNum.isFloat = true ∧
       ¬(sp ≠ [] ∧ (sp.map PyNum.toFloat).sum = 0) ∧
       N - (normalizedCounts N (sp.map PyNum.toFloat)).sum = 0) := by
  rw [floatBranch]
  by_cases h1 : sp.all PyNum.isFloat = true
  · rw [if_pos h1]
    by_cases h2 : sp ≠ [] ∧ (sp.map PyNum.toFloat).sum = 0
    · rw [if_pos h2]
      simp [h1, h2]
    · rw [if_neg h2]
      by_cases h3 : N - (normalizedCounts N (sp.map PyNum.toFloat)).sum = 0
      · rw [if_pos h3]
        simp [h1, h2, h3]
      · rw [if_neg h3]
        simp [h1, h2, h3]
  · rw [if_neg h1]
    simp [h1]

theorem splitCore_isVE {α : Type} (rs : List PyNum → List α) (N : Int)
    (sp : List PyNum) (nones : List Nat) :
    isValueErrorResult (splitCore rs N sp nones) = true ↔
      floatBranch N sp = .error .valueErrorLastZero := by
  rw [splitCore]
  cases hfb : floatBranch N sp with
  | error e =>
    have hcases : e = .zeroDivisionError ∨ e = .valueErrorLastZero := by
      rw [floatBranch] at hfb
      split at hfb
      · split at hfb
        · exact Or.inl (Except.error.inj hfb).symm
        · split at hfb
          · exact Or.inr (Except.error.inj hfb).symm
          · exact absurd hfb (by simp)
      · exact absurd hfb (by simp)
    rcases hcases with he | he <;> subst he <;>
      simp [isValueErrorResult, SplitErr.isValueError]
  | ok sp2 =>
    simp only []
    constructor
    · intro hve
      exfalso
      by_cases hn : nones.any (fun j => j != 0) = true
      · rw [if_pos hn] at hve
        cases hpr : popReassemble nones ((rs sp2).length + nones.length) 0 (rs sp2) with
        | none => rw [hpr] at hve; simp [isValueErrorResult, SplitErr.isValueError] at hve
        | some o => rw [hpr] at hve; simp [isValueErrorResult] at hve
      · rw [if_neg hn] at hve
        simp [isValueErrorResult] at hve
    · intro hfe
      exact absurd hfe (by simp)

/-- C10: `DBDataset.split` raises `ValueError` exactly when the first
entry of the splits sequence is absent, or when the present entries are
all floats, their sum is not the zero-division case, and the last count
`N` minus the sum of `int(N * x)` over the other normalized proportions
is zero.  Both raises happen before `random_split` is consulted; a zero
float sum raises `ZeroDivisionError` instead, which is not a
`ValueError`. -/
theorem C10_split_valueerror_iff {α : Type} (rs : List PyNum → List α) (N : Int)
    (splits : List (Option PyNum)) :
    isValueErrorResult (DBDataset.split rs N splits) = true ↔
      (splits.head? = some none ∨
        ((splits.filterMap id).all PyNum.isFloat = true ∧
         ¬(splits.filterMap id ≠ [] ∧
              ((splits.filterMap id).map PyNum.toFloat).sum = 0) ∧
         N - (normalizedCounts N ((splits.filterMap id).map PyNum.toFloat)).sum = 0)) := by
  rw [DBDataset.split]
  by_cases hany : splits.any Option.isNone = true
  · rw [if_pos hany]
    by_cases hhead : splits.head? = some none
    · rw [if_pos hhead]
      simp [isValueErrorResult, SplitErr.isValueError, hhead]
    · rw [if_neg hhead]
      rw [splitCore_isVE, floatBranch_lastZero_iff]
      simp [hhead]
  · rw [if_neg hany]
    rw [splitCore_isVE, floatBranch_lastZero_iff]
    have hh : ¬ splits.head? = some none := by
      cases splits with
      | nil => simp
      | cons a t =>
        cases a with
        | none => exact absurd (by simp) hany
        | some z => simp
    simp [hh]

/-- C8: `val_dataloader` returns `None` exactly when `splits` is `None`,
has fewer than two entries, or has an absent second entry; otherwise it
returns a `DataLoader` over the (lazily prepared and set-up) module
attribute `val_ds`, built from the stored loader kwargs with the given
shuffle flag. -/
theorem C8_val_dataloader {δ κ : Type} (prep setupFit : DBDataModule δ κ → DBDataModule δ κ)
    (m : DBDataModule δ κ) (shuffle : Bool) :
    (DBDataModule.val_dataloader prep setupFit m shuffle = none ↔
      (m.splits = none ∨
        ∃ s, m.splits = some s ∧ (s.length < 2 ∨ s[1]? = some none))) ∧
    (∀ s, m.splits = some s → 2 ≤ s.length → s[1]? ≠ some none →
      DBDataModule.val_dataloader prep setupFit m shuffle =
        some (DataLoader.mk (afterFitSetup prep setupFit m).val_ds
          (afterFitSetup prep setupFit m).loader_kwargs (some shuffle))) := by
  have hvd : DBDataModule.val_dataloader prep setupFit m shuffle =
      if (match m.splits with
          | none => false
          | some s => decide (2 ≤ s.length) && decide (s[1]? ≠ some none)) then
        some (DataLoader.mk (afterFitSetup prep setupFit m).val_ds
          (afterFitSetup prep setupFit m).loader_kwargs (some shuffle))
      else none := rfl
  rw [hvd]
  cases hs : m.splits with
  | none =>
    constructor
    · simp
    · intro s heq
      exact absurd heq (by simp)
  | some s =>
    simp only []
    by_cases h2 : 2 ≤ s.length
    · by_cases h3 : s[1]? = some none
      · have hcond : (decide (2 ≤ s.length) && decide (s[1]? ≠ some none)) = false := by
          simp [h3]
        constructor
        · rw [if_neg (by simp [h3])]
          constructor
          · intro _
            exact Or.inr ⟨s, rfl, Or.inr h3⟩
          · intro _
            rfl
        · intro s' heq _ h3'
          have hss : s' = s := (Option.some.inj heq).symm
          subst hss
          exact absurd h3 h3'
      · have hcond : (decide (2 ≤ s.length) && decide (s[1]? ≠ some none)) = true := by
          simp [h2, h3]
        constructor
        · rw [if_pos hcond]
          constructor
          · intro habs
            exact absurd habs (by simp)
          · rintro (habs | ⟨s', heq, habs⟩)
            · exact absurd habs (by simp)
            · have hss : s' = s := (Option.some.inj heq).symm
              subst hss
              rcases habs with habs | habs
              · omega
              · exact absurd habs h3
        · intro s' heq _ _
          rw [if_pos hcond]
    · have hcond : (decide (2 ≤ s.length) && decide (s[1]? ≠ some none)) = false := by
        simp [h2]
      constructor
      · rw [if_neg (by simp [h2])]
        constructor
        · intro _
          exact Or.inr ⟨s, rfl, Or.inl (by omega)⟩
        · intro _
          rfl
      · intro s' heq h2' _
        have hss : s' = s := (Option.some.inj heq).symm
        subst hss
        exact absurd h2' h2

/-- Witness for C8 at a concrete module: splits `[8, 2]` yields a loader
over the stored `val_ds = 5` with kwargs 7 and the shuffle flag. -/
theorem C8_val_dataloader_witness :
    DBDataModule.val_dataloader id id modA true = some (DataLoader.mk 5 7 (some true)) :=
  (C8_val_dataloader id id modA true).2 [some (PyNum.i 8), some (PyNum.i 2)] rfl
    (by decide) (by decide)

/-! Lemmas for claim C9. -/

theorem dictInsert_not_mem {γ : Type} (d : List (String × γ)) (k : String) (v : γ)
    (h : k ∉ d.map Prod.fst) : dictInsert d k v = d ++ [(k, v)] := by
  rw [dictInsert, if_neg]
  intro hc
  rw [List.any_eq_true] at hc
  obtain ⟨p, hp, he⟩ := hc
  rw [beq_iff_eq] at he
  exact h (he ▸ List.mem_map_of_mem Prod.fst hp)

theorem dictUpdate_append {γ : Type} :
    ∀ (kvs d : List (String × γ)), ((d ++ kvs).map Prod.fst).Nodup →
      dictUpdate d kvs = d ++ kvs := by
  intro kvs
  induction kvs with
  | nil => intro d _; simp [dictUpdate]
  | cons kv rest ih =>
    intro d h
    have hk : kv.1 ∉ d.map Prod.fst := by
      rw [List.map_append] at h
      have hdisj := (List.nodup_append.mp h).2.2
      intro hmem
      exact hdisj hmem (by rw [List.map_cons]; exact List.mem_cons_self _ _)
    show dictUpdate (dictInsert d kv.1 kv.2) rest = d ++ kv :: rest
    rw [dictInsert_not_mem d kv.1 kv.2 hk]
    show dictUpdate (d ++ [kv]) rest = d ++ kv :: rest
    rw [List.append_cons d kv rest] at h ⊢
    exact ih (d ++ [kv]) h

theorem hparams_fold_append {γ : Type} (db : DBDatasetMeta γ) :
    ∀ (fs : List String) (acc : List (String × γ)),
    ((acc ++ (fs.map db.keyedAttrs).flatten).map Prod.fst).Nodup →
    fs.foldl (fun params feat => dictUpdate params (db.keyedAttrs feat)) acc
      = acc ++ (fs.map db.keyedAttrs).flatten := by
  intro fs
  induction fs with
  | nil => intro acc _; simp
  | cons f fs ih =>
    intro acc h
    rw [List.map_cons, List.flatten_cons, ← List.append_assoc] at h ⊢
    rw [List.foldl_cons]
    have hsub : ((acc ++ db.keyedAttrs f).map Prod.fst).Nodup := by
      rw [List.map_append] at h
      exact ((List.nodup_append.mp h).1 : ((acc ++ db.keyedAttrs f).map Prod.fst).Nodup)
    rw [dictUpdate_append (db.keyedAttrs f) acc hsub]
    exact ih (acc ++ db.keyedAttrs f) h

theorem hparams_eq_flat {γ : Type} (db : DBDatasetMeta γ)
    (h : (db.flatKeyed.map Prod.fst).Nodup) : db.hparams = db.flatKeyed := by
  rw [DBDatasetMeta.hparams, DBDatasetMeta.flatKeyed]
  have hh : ((([] : List (String × γ)) ++ (db.features.map db.keyedAttrs).flatten).map
      Prod.fst).Nodup := by
    rw [List.nil_append]
    exact h
  rw [hparams_fold_append db db.features [] hh, List.nil_append]

theorem lookup_eq_some_of_nodup {γ : Type} :
    ∀ (l : List (String × γ)), (l.map Prod.fst).Nodup → ∀ (k : String) (v : γ),
      l.lookup k = some v ↔ (k, v) ∈ l := by
  intro l
  induction l with
  | nil => intro _ k v; simp
  | cons p rest ih =>
    intro h k v
    obtain ⟨a, b⟩ := p
    rw [List.lookup_cons]
    cases hbeq : k == a with
    | true =>
      have hk : k = a := eq_of_beq hbeq
      subst hk
      have hkmem : k ∉ rest.map Prod.fst := by
        rw [List.map_cons] at h
        exact (List.nodup_cons.mp h).1
      constructor
      · intro hv
        have hbv : v = b := (Option.some.inj hv).symm
        subst hbv
        exact List.mem_cons_self _ _
      · intro hm
        rcases List.mem_cons.mp hm with he | hm2
        · have hbv : v = b := congrArg Prod.snd he
          rw [hbv]
        · exact absurd (List.mem_map_of_mem Prod.fst hm2) hkmem
    | false =>
      have hne : ¬ k = a := by
        intro he
        rw [he, beq_self_eq_true] at hbeq
        cases hbeq
      have hrest : (rest.map Prod.fst).Nodup := by
        rw [List.map_cons] at h
        exact (List.nodup_cons.mp h).2
      rw [ih hrest k v]
      constructor
      · exact List.mem_cons_of_mem _
      · intro hm
        rcases List.mem_cons.mp hm with he | hm2
        · exact absurd (congrArg Prod.fst he) hne
        · exact hm2

/-- C9 (amended): provided no two (feature, attribute-key) pairs compose
to the same string `feat + "_" + key`, the `hparams` dict maps exactly the
composed keys to the corresponding attribute values and contains nothing
else.  Without that proviso the claim fails: a later feature silently
overwrites the entry of an earlier one that composed to the same key, see
the counterexample. -/
theorem C9_hparams_keys {γ : Type} (db : DBDatasetMeta γ)
    (h : (db.flatKeyed.map Prod.fst).Nodup) (key : String) (v : γ) :
    db.hparams.lookup key = some v ↔
      ∃ feat, feat ∈ db.features ∧ ∃ k, (k, v) ∈ db.attrs feat ∧ key = feat ++ "_" ++ k := by
  rw [hparams_eq_flat db h, lookup_eq_some_of_nodup db.flatKeyed h key v]
  rw [DBDatasetMeta.flatKeyed, List.mem_flatten]
  constructor
  · rintro ⟨l, hl, hm⟩
    rw [List.mem_map] at hl
    obtain ⟨feat, hfeat, rfl⟩ := hl
    rw [DBDatasetMeta.keyedAttrs, List.mem_map] at hm
    obtain ⟨kv, hkv, hekv⟩ := hm
    refine ⟨feat, hfeat, kv.1, ?_, (congrArg Prod.fst hekv).symm⟩
    have hv : kv.2 = v := congrArg Prod.snd hekv
    rw [← hv, Prod.mk.eta]
    exact hkv
  · rintro ⟨feat, hfeat, k, hk, rfl⟩
    refine ⟨db.keyedAttrs feat, List.mem_map_of_mem _ hfeat, ?_⟩
    rw [DBDatasetMeta.keyedAttrs, List.mem_map]
    exact ⟨(k, v), hk, rfl⟩

/-- Witness for C9 at concrete metadata without key collisions: feature
`u` with attribute `a = 1` yields the entry `u_a`. -/
theorem C9_hparams_keys_witness : dbOk.hparams.lookup "u_a" = some 1 :=
  (C9_hparams_keys dbOk (by decide) "u_a" 1).mpr
    ⟨"u", by decide, "a", by decide, rfl⟩

/-- Counterexample to C9 as stated: with features `a` and `a_b`, attribute
`b_c = 1` of `a` and attribute `c = 2` of `a_b` both compose to the key
`a_b_c`; the dict holds only the later value 2, so it does not map
`a_b_c` to the attribute value 1 as the claim requires. -/
theorem C9_counterexample :
    ¬ (∀ (key : String) (v : Int), dbCollide.hparams.lookup key = some v ↔
        ∃ feat, feat ∈ dbCollide.features ∧
          ∃ k, (k, v) ∈ dbCollide.attrs feat ∧ key = feat ++ "_" ++ k) := by
  intro h
  have h1 := (h "a_b_c" 1).mpr ⟨"a", by decide, "b_c", by decide, by decide⟩
  have h2 : dbCollide.hparams.lookup "a_b_c" = some 2 := by decide
  rw [h1] at h2
  exact absurd (Option.some.inj h2) (by decide)

end MmkSpec
